import Mathlib

/-!
# Verification of the parasync transfer tool

A shallow embedding of `src/parasync/main.py` — a tool that partitions a
file set into size-balanced groups, runs one external `rsync` process per
group, and aggregates progress — together with proofs of the spec's claims.

Modelling conventions:
* Python lists become `List`, tuples become structures or products.
* Byte counts and sizes are `Nat` (they come from `os.path.getsize` and
  from parsing decimal digit strings, hence nonnegative and unbounded in
  Python 3).
* Wall-clock times and float arithmetic in the progress monitor are
  modelled over `ℚ` (exact rational arithmetic standing in for IEEE
  doubles; the claims under scrutiny concern guard logic and exact
  formulas, not rounding of binary floats).
* External effects (the filesystem walk, the spawned `rsync` process,
  threads) are abstracted into explicit inputs: the walk result is a list
  of `FileEntry`, a spawned process is its stdout line sequence plus a
  return code, and a thread schedule is the order in which task workers
  write their results.
-/

namespace Parasync

/-- A file entry as produced by the directory walk in `main`:
`file_info.append((abs_path, size))` — a path with its size in bytes. -/
structure FileEntry where
  path : String
  size : Nat
deriving DecidableEq, Repr

/-! ## Partitioner: `Helper.split_files_by_capacity`

Python:
```
groups = [[] for _ in range(groups_count)]
group_sizes = [0] * groups_count
for path, size in sorted(file_info_list, key=lambda x: x[1], reverse=True):
    idx = group_sizes.index(min(group_sizes))
    groups[idx].append(path)
    group_sizes[idx] += size
return groups
```
-/

/-- The order used by `sorted(..., key=lambda x: x[1], reverse=True)`:
descending on `size`.  Python's sort is stable, and `insertionSort` with
this relation is the stable descending sort (an element is inserted before
the first strictly smaller one, after equal-sized earlier elements). -/
def sizeGE (a b : FileEntry) : Prop := b.size ≤ a.size

instance : DecidableRel sizeGE := fun a b => inferInstanceAs (Decidable (b.size ≤ a.size))

instance : IsTotal FileEntry sizeGE := ⟨fun a b => Nat.le_total b.size a.size⟩

instance : IsTrans FileEntry sizeGE := ⟨fun _ _ _ h h' => Nat.le_trans h' h⟩

/-- `sorted(file_info_list, key=lambda x: x[1], reverse=True)`. -/
def sortBySizeDesc (l : List FileEntry) : List FileEntry :=
  List.insertionSort sizeGE l

/-- Python `min(list)` on a list of naturals (`min([])` raises in Python;
the code only evaluates it with `groups_count ≥ 1` elements, and we return
a junk value 0 on `[]`). -/
def listMin : List Nat → Nat
  | [] => 0
  | x :: xs => xs.foldl min x

/-- Python `group_sizes.index(min(group_sizes))`: the first (lowest) index
holding the minimum running total. -/
def minIdx (l : List Nat) : Nat := l.indexOf (listMin l)

/-- One iteration of the assignment loop: pick the least-loaded group
(lowest index on ties), append the path to it, add the size to its total. -/
def assignStep : List (List String) × List Nat → FileEntry → List (List String) × List Nat
  | (groups, sizes), e =>
    let idx := minIdx sizes
    (groups.set idx (groups.getD idx [] ++ [e.path]),
     sizes.set idx (sizes.getD idx 0 + e.size))

/-- `Helper.split_files_by_capacity`: the returned `groups`. -/
def split_files_by_capacity (entries : List FileEntry) (groups_count : Nat) :
    List (List String) :=
  ((sortBySizeDesc entries).foldl assignStep
    (List.replicate groups_count [], List.replicate groups_count 0)).1

/-- The final `group_sizes` array of the same loop (the per-group running
totals when `split_files_by_capacity` returns). -/
def splitGroupSizes (entries : List FileEntry) (groups_count : Nat) : List Nat :=
  ((sortBySizeDesc entries).foldl assignStep
    (List.replicate groups_count [], List.replicate groups_count 0)).2

/-! ### Partitioner lemmas -/

theorem foldl_min_mem : ∀ (xs : List Nat) (a : Nat), xs.foldl min a = a ∨ xs.foldl min a ∈ xs := by
  intro xs
  induction xs with
  | nil => intro a; left; rfl
  | cons y ys ih =>
    intro a
    rcases ih (min a y) with h | h
    · rw [List.foldl_cons, h]
      rcases Nat.le_total a y with hle | hle
      · left; exact Nat.min_eq_left hle
      · right; rw [Nat.min_eq_right hle]; exact List.mem_cons_self _ _
    · right; exact List.mem_cons_of_mem _ h

theorem listMin_mem : ∀ {l : List Nat}, l ≠ [] → listMin l ∈ l := by
  intro l hl
  match l with
  | x :: xs =>
    rcases foldl_min_mem xs x with h | h
    · rw [listMin, h]; exact List.mem_cons_self _ _
    · exact List.mem_cons_of_mem _ h

theorem minIdx_lt_length {l : List Nat} (hl : l ≠ []) : minIdx l < l.length :=
  List.indexOf_lt_length.2 (listMin_mem hl)

theorem assignStep_fst_length (st : List (List String) × List Nat) (e : FileEntry) :
    (assignStep st e).1.length = st.1.length := by
  rcases st with ⟨g, s⟩; simp [assignStep]

theorem assignStep_snd_length (st : List (List String) × List Nat) (e : FileEntry) :
    (assignStep st e).2.length = st.2.length := by
  rcases st with ⟨g, s⟩; simp [assignStep]

/-- Appending an element to the `i`-th sublist permutes the flattened list
by consing the element. -/
theorem flatten_set_append_perm :
    ∀ (l : List (List String)) (i : Nat), i < l.length → ∀ (p : String),
      (l.set i (l.getD i [] ++ [p])).flatten.Perm (p :: l.flatten) := by
  intro l
  induction l with
  | nil => intro i hi; simp at hi
  | cons g gs ih =>
    intro i hi p
    rcases i with _ | i
    · simp only [List.set_cons_zero, List.getD_cons_zero, List.flatten_cons]
      exact (List.perm_append_singleton p g).append_right gs.flatten
    · simp only [List.set_cons_succ, List.getD_cons_succ, List.flatten_cons]
      have hi' : i < gs.length := Nat.lt_of_succ_lt_succ hi
      exact ((ih i hi' p).append_left g).trans List.perm_middle

/-- Fold invariant: running the assignment loop over `l` from a state with
matching nonempty group/size arrays flattens to the processed paths plus
whatever was already in the groups. -/
theorem foldl_assignStep_join_perm :
    ∀ (l : List FileEntry) (groups : List (List String)) (sizes : List Nat),
      groups.length = sizes.length → sizes ≠ [] →
      (l.foldl assignStep (groups, sizes)).1.flatten.Perm
        (l.map (·.path) ++ groups.flatten) := by
  intro l
  induction l with
  | nil => intro groups sizes _ _; simp
  | cons e es ih =>
    intro groups sizes hlen hne
    simp only [List.foldl_cons, List.map_cons, List.cons_append]
    have hslt : minIdx sizes < sizes.length := minIdx_lt_length hne
    have hglt : minIdx sizes < groups.length := by rw [hlen]; exact hslt
    have hstep : (assignStep (groups, sizes) e).1.flatten.Perm (e.path :: groups.flatten) := by
      simpa [assignStep] using flatten_set_append_perm groups (minIdx sizes) hglt e.path
    have hlen' : (assignStep (groups, sizes) e).1.length = (assignStep (groups, sizes) e).2.length := by
      rw [assignStep_fst_length, assignStep_snd_length, hlen]
    have hne' : (assignStep (groups, sizes) e).2 ≠ [] := by
      intro h
      have := assignStep_snd_length (groups, sizes) e
      rw [h] at this
      exact hne (List.eq_nil_of_length_eq_zero this.symm)
    have h1 := ih (assignStep (groups, sizes) e).1 (assignStep (groups, sizes) e).2 hlen' hne'
    exact (h1.trans (hstep.append_left _)).trans List.perm_middle

theorem foldl_min_le_init : ∀ (xs : List Nat) (a : Nat), xs.foldl min a ≤ a := by
  intro xs
  induction xs with
  | nil => intro a; exact Nat.le_refl a
  | cons y ys ih =>
    intro a
    exact Nat.le_trans (ih (min a y)) (Nat.min_le_left a y)

theorem foldl_min_le_mem : ∀ (xs : List Nat) (a x : Nat), x ∈ xs → xs.foldl min a ≤ x := by
  intro xs
  induction xs with
  | nil => intro a x hx; cases hx
  | cons y ys ih =>
    intro a x hx
    rcases List.mem_cons.1 hx with rfl | hx
    · exact Nat.le_trans (foldl_min_le_init ys (min a x)) (Nat.min_le_right a x)
    · exact ih (min a y) x hx

/-- `min(group_sizes)` is a lower bound of all running totals. -/
theorem listMin_le {l : List Nat} {x : Nat} (hx : x ∈ l) : listMin l ≤ x := by
  match l, hx with
  | y :: ys, hx =>
    rcases List.mem_cons.1 hx with rfl | hx
    · exact foldl_min_le_init ys x
    · exact foldl_min_le_mem ys y x hx

/-- Python `list.index` returns the FIRST index of its argument: every
earlier position holds a different value. -/
theorem indexOf_first : ∀ (l : List Nat) (a j : Nat), j < l.indexOf a → l.getD j 0 ≠ a := by
  intro l
  induction l with
  | nil => intro a j hj; simp [List.indexOf] at hj
  | cons x xs ih =>
    intro a j hj
    by_cases hxa : x = a
    · rw [hxa, List.indexOf_cons_self] at hj; cases hj
    · rw [List.indexOf_cons_ne _ hxa] at hj
      rcases j with _ | j
      · simpa using hxa
      · exact ih a j (Nat.lt_of_succ_lt_succ hj)

theorem getD_minIdx {l : List Nat} (hl : l ≠ []) : l.getD (minIdx l) 0 = listMin l := by
  have hm : listMin l ∈ l := listMin_mem hl
  have hlt : minIdx l < l.length := minIdx_lt_length hl
  rw [List.getD_eq_getElem l 0 hlt]
  exact List.getElem_indexOf hlt

theorem foldl_assignStep_fst_length :
    ∀ (l : List FileEntry) (st : List (List String) × List Nat),
      (l.foldl assignStep st).1.length = st.1.length := by
  intro l
  induction l with
  | nil => intro st; rfl
  | cons e es ih =>
    intro st
    rw [List.foldl_cons, ih, assignStep_fst_length]

theorem foldl_min_zero (m : Nat) : (List.replicate m 0).foldl min 0 = 0 := by
  induction m with
  | zero => rfl
  | succ k ih => simpa [List.replicate_succ] using ih

theorem listMin_zero_cons (m : Nat) : listMin (0 :: List.replicate m 0) = 0 :=
  foldl_min_zero m

theorem minIdx_zero_cons (m : Nat) : minIdx (0 :: List.replicate m 0) = 0 := by
  rw [minIdx, listMin_zero_cons, List.indexOf_cons_self]

/-- When every entry has size zero the tie-break sends every file to
group 0 and the running totals stay all-zero. -/
theorem foldl_assignStep_all_zero :
    ∀ (l : List FileEntry), (∀ e ∈ l, e.size = 0) →
      ∀ (g0 : List String) (rest : List (List String)),
        l.foldl assignStep (g0 :: rest, 0 :: List.replicate rest.length 0) =
          ((g0 ++ l.map (·.path)) :: rest, 0 :: List.replicate rest.length 0) := by
  intro l
  induction l with
  | nil => intro _ g0 rest; simp
  | cons e es ih =>
    intro hz g0 rest
    have hze : e.size = 0 := hz e (List.mem_cons_self _ _)
    have hstep : assignStep (g0 :: rest, 0 :: List.replicate rest.length 0) e =
        ((g0 ++ [e.path]) :: rest, 0 :: List.replicate rest.length 0) := by
      simp [assignStep, minIdx_zero_cons, hze]
    rw [List.foldl_cons, hstep, ih (fun x hx => hz x (List.mem_cons_of_mem _ hx)) _ rest]
    simp

/-- Each nonempty group contributes at least one element to the flattening. -/
theorem length_filter_ne_nil_le_flatten :
    ∀ (l : List (List String)),
      (l.filter (fun g => !g.isEmpty)).length ≤ l.flatten.length := by
  intro l
  induction l with
  | nil => exact Nat.le_refl 0
  | cons g gs ih =>
    rcases g with _ | ⟨x, xs⟩
    · simpa using ih
    · simp only [List.filter_cons, List.flatten_cons]
      simp only [List.isEmpty_cons, Bool.not_false, if_pos]
      simp only [List.length_cons, List.length_append]
      omega

/-- The flattening of the returned groups is a permutation of the input
paths (shared workhorse for the partition claims). -/
theorem split_flatten_perm (entries : List FileEntry) (n : Nat) (hn : 1 ≤ n) :
    (split_files_by_capacity entries n).flatten.Perm (entries.map (·.path)) := by
  unfold split_files_by_capacity
  have hne : (List.replicate n (0 : Nat)) ≠ [] := by
    cases n with
    | zero => cases hn
    | succ k => simp
  have h := foldl_assignStep_join_perm (sortBySizeDesc entries)
      (List.replicate n []) (List.replicate n 0) (by simp) hne
  have hflat : (List.replicate n ([] : List String)).flatten = [] := by simp
  rw [hflat, List.append_nil] at h
  exact h.trans ((List.perm_insertionSort sizeGE entries).map (·.path))

end Parasync

namespace Parasync

open Parasync in
/-- C1: for every input sequence of `(path, size)` entries and every
`groupCount ≥ 1`, the multiset of paths in the groups returned by
`Helper.split_files_by_capacity` equals the multiset of input paths —
every input path appears in exactly one group, with no duplication and no
omission. -/
theorem claim_C1_partition_perm (entries : List FileEntry) (n : Nat) (hn : 1 ≤ n) :
    (split_files_by_capacity entries n).flatten.Perm (entries.map (·.path)) :=
  split_flatten_perm entries n hn

/-- Witness for C1 at a concrete input. -/
theorem claim_C1_partition_perm_witness :
    (split_files_by_capacity
        [⟨"/dummy/file1", 500⟩, ⟨"/dummy/file2", 300⟩, ⟨"/dummy/file3", 200⟩,
         ⟨"/dummy/file4", 100⟩] 2).flatten.Perm
      ["/dummy/file1", "/dummy/file2", "/dummy/file3", "/dummy/file4"] := by
  have h := claim_C1_partition_perm
      [⟨"/dummy/file1", 500⟩, ⟨"/dummy/file2", 300⟩, ⟨"/dummy/file3", 200⟩,
       ⟨"/dummy/file4", 100⟩] 2 (by decide)
  simpa using h

/-- C2: the partitioner is the LPT heuristic — entries are processed in
descending size order and each is assigned to the group with the smallest
running total, ties broken by the lowest group index (the characterization
of `group_sizes.index(min(group_sizes))`); concretely, sizes
`{500,300,200,100}` split into 2 groups give totals `[600, 500]`, which
differ by at most 200. -/
theorem claim_C2_lpt :
    (∀ l : List Nat, l ≠ [] →
      minIdx l < l.length ∧
      l.getD (minIdx l) 0 = listMin l ∧
      (∀ x ∈ l, listMin l ≤ x) ∧
      (∀ j, j < minIdx l → listMin l < l.getD j 0)) ∧
    (∀ entries : List FileEntry, List.Sorted sizeGE (sortBySizeDesc entries)) ∧
    splitGroupSizes
        [⟨"/dummy/file1", 500⟩, ⟨"/dummy/file2", 300⟩, ⟨"/dummy/file3", 200⟩,
         ⟨"/dummy/file4", 100⟩] 2 = [600, 500] ∧
    (splitGroupSizes
        [⟨"/dummy/file1", 500⟩, ⟨"/dummy/file2", 300⟩, ⟨"/dummy/file3", 200⟩,
         ⟨"/dummy/file4", 100⟩] 2).getD 0 0 -
      (splitGroupSizes
        [⟨"/dummy/file1", 500⟩, ⟨"/dummy/file2", 300⟩, ⟨"/dummy/file3", 200⟩,
         ⟨"/dummy/file4", 100⟩] 2).getD 1 0 ≤ 200 := by
  refine ⟨?_, fun entries => List.sorted_insertionSort sizeGE entries, by decide, by decide⟩
  intro l hl
  refine ⟨minIdx_lt_length hl, getD_minIdx hl, fun x hx => listMin_le hx, ?_⟩
  intro j hj
  have hne := indexOf_first l (listMin l) j hj
  have hjlen : j < l.length := Nat.lt_trans hj (minIdx_lt_length hl)
  have hle : listMin l ≤ l.getD j 0 := by
    apply listMin_le
    rw [List.getD_eq_getElem l 0 hjlen]
    exact List.getElem_mem hjlen
  exact Nat.lt_of_le_of_ne hle (Ne.symm hne)

/-- Witness for C2 at a concrete input. -/
theorem claim_C2_lpt_witness :
    minIdx [4, 1, 1] < 3 ∧ listMin [4, 1, 1] < [4, 1, 1].getD 0 0 :=
  ⟨(claim_C2_lpt.1 [4, 1, 1] (by decide)).1,
   (claim_C2_lpt.1 [4, 1, 1] (by decide)).2.2.2 0 (by decide)⟩

/-- C10: `split_files_by_capacity` always returns exactly `groups_count`
groups; at most `entries.length` of them are nonempty (so surplus groups
are returned empty, not omitted); and when every size is zero the
tie-break sends every entry to group 0, all other groups coming back
empty. -/
theorem claim_C10_group_count (entries : List FileEntry) (n : Nat) (hn : 1 ≤ n) :
    (split_files_by_capacity entries n).length = n ∧
    ((split_files_by_capacity entries n).filter (fun g => !g.isEmpty)).length ≤
      entries.length ∧
    ((∀ e ∈ entries, e.size = 0) →
      split_files_by_capacity entries n =
        entries.map (·.path) :: List.replicate (n - 1) []) := by
  refine ⟨?_, ?_, ?_⟩
  · unfold split_files_by_capacity
    rw [foldl_assignStep_fst_length]
    simp
  · have hlen : (split_files_by_capacity entries n).flatten.length = entries.length := by
      rw [(split_flatten_perm entries n hn).length_eq, List.length_map]
    calc ((split_files_by_capacity entries n).filter (fun g => !g.isEmpty)).length
        ≤ (split_files_by_capacity entries n).flatten.length :=
          length_filter_ne_nil_le_flatten _
      _ = entries.length := hlen
  · intro hz
    obtain ⟨m, rfl⟩ : ∃ m, n = m + 1 := ⟨n - 1, (Nat.succ_pred_eq_of_pos hn).symm⟩
    have hsort : sortBySizeDesc entries = entries := by
      apply List.Sorted.insertionSort_eq
      have hrefl : Reflexive sizeGE := fun a => Nat.le_refl a.size
      refine List.pairwise_of_reflexive_of_forall_ne hrefl ?_
      intro a ha b hb _
      show b.size ≤ a.size
      rw [hz b hb]
      exact Nat.zero_le _
    unfold split_files_by_capacity
    rw [hsort]
    have h := foldl_assignStep_all_zero entries hz [] (List.replicate m [])
    rw [List.length_replicate] at h
    rw [List.replicate_succ, List.replicate_succ, h]
    simp

/-- Witness for C10 at a concrete input. -/
theorem claim_C10_group_count_witness :
    (split_files_by_capacity [⟨"/x", 0⟩, ⟨"/y", 0⟩] 3).length = 3 ∧
    split_files_by_capacity [⟨"/x", 0⟩, ⟨"/y", 0⟩] 3 = [["/x", "/y"], [], []] := by
  have h := claim_C10_group_count [⟨"/x", 0⟩, ⟨"/y", 0⟩] 3 (by decide)
  exact ⟨h.1, by simpa using h.2.2 (by decide)⟩

/-! ## Human-readable formatting: `Helper.bytes2human` / `Helper.bits2human`

Python builds `prefix[s] = base ** i` over the fixed six-symbol tuple and
scans the symbols in reverse (largest first), returning
`f"{float(n)/prefix[s]:.1f} {s}"` at the first factor not exceeding `n`,
and `f"{n} B"` (resp. `"bps"`) when even factor 1 exceeds `n` (i.e. `n = 0`).
The float quotient and `:.1f` are modelled exactly over the rationals:
`:.1f` rounds to one decimal digit with ties to even, which on the exact
quotient `n / base^i` is `roundHalfEven (10*n) (base^i)`. -/

/-- Round `num / den` to the nearest integer, ties to even (the rounding
of Python's `:.1f` applied to the exact quotient). -/
def roundHalfEven (num den : Nat) : Nat :=
  let q := num / den
  let r := num % den
  if 2 * r < den then q
  else if den < 2 * r then q + 1
  else if q % 2 = 0 then q else q + 1

/-- The numeric part of `f"{value:.1f}"` for `value = num / den`. -/
def fmtOneDecimal (num den : Nat) : String :=
  let v10 := roundHalfEven (10 * num) den
  toString (v10 / 10) ++ "." ++ toString (v10 % 10)

/-- The reverse scan `for s in reversed(symbols): if n >= factor` over the
six fixed units, unrolled: the index of the largest unit whose factor does
not exceed `n`, `none` when `n` is below factor `1` (i.e. `n = 0`). -/
def unitIdx (base n : Nat) : Option Nat :=
  if base ^ 5 ≤ n then some 5
  else if base ^ 4 ≤ n then some 4
  else if base ^ 3 ≤ n then some 3
  else if base ^ 2 ≤ n then some 2
  else if base ^ 1 ≤ n then some 1
  else if base ^ 0 ≤ n then some 0
  else none

def byteSymbols : List String := ["B", "KB", "MB", "GB", "TB", "PB"]

def bitSymbols : List String := ["bps", "Kbps", "Mbps", "Gbps", "Tbps", "Pbps"]

/-- `Helper.bytes2human` (base 1024). -/
def bytes2human (n : Nat) : String :=
  match unitIdx 1024 n with
  | some i => fmtOneDecimal n (1024 ^ i) ++ " " ++ byteSymbols.getD i "B"
  | none => toString n ++ " B"

/-- `Helper.bits2human` (base 1000). -/
def bits2human (n : Nat) : String :=
  match unitIdx 1000 n with
  | some i => fmtOneDecimal n (1000 ^ i) ++ " " ++ bitSymbols.getD i "bps"
  | none => toString n ++ " bps"

theorem unitIdx_largest (base n i : Nat) (h : unitIdx base n = some i) :
    base ^ i ≤ n ∧ (i < 5 → n < base ^ (i + 1)) := by
  unfold unitIdx at h
  split_ifs at h with h5 h4 h3 h2 h1 h0
  · cases h; exact ⟨h5, fun hi => absurd hi (by omega)⟩
  · cases h; exact ⟨h4, fun _ => Nat.lt_of_not_le h5⟩
  · cases h; exact ⟨h3, fun _ => Nat.lt_of_not_le h4⟩
  · cases h; exact ⟨h2, fun _ => Nat.lt_of_not_le h3⟩
  · cases h; exact ⟨h1, fun _ => Nat.lt_of_not_le h2⟩
  · cases h; exact ⟨h0, fun _ => Nat.lt_of_not_le h1⟩

theorem unitIdx_isSome (base n : Nat) (hn : 1 ≤ n) : ∃ i, unitIdx base n = some i := by
  unfold unitIdx
  split_ifs with h5 h4 h3 h2 h1 h0 <;> first
    | exact ⟨_, rfl⟩
    | (exfalso; exact h0 (by simpa using hn))

/-- C8: `bytes2human 123456789` carries an `"MB"` suffix (it renders as
`"117.7 MB"`), exactly `1024` bytes renders as `"1.0 KB"` (not
`"1024.0 B"`), `bits2human` uses base 1000 (`12345678 → "12.3 Mbps"`),
both round to one decimal place, and for every positive input the scan
picks the largest of the six units whose factor does not exceed the
value. -/
theorem claim_C8_human_format :
    bytes2human 123456789 = "117.7 MB" ∧
    bytes2human 1024 = "1.0 KB" ∧
    bits2human 12345678 = "12.3 Mbps" ∧
    (∀ n : Nat, 1 ≤ n → ∀ i, unitIdx 1024 n = some i →
      bytes2human n = fmtOneDecimal n (1024 ^ i) ++ " " ++ byteSymbols.getD i "B" ∧
      1024 ^ i ≤ n ∧ (i < 5 → n < 1024 ^ (i + 1))) ∧
    (∀ n : Nat, 1 ≤ n → ∃ i, unitIdx 1000 n = some i ∧
      bits2human n = fmtOneDecimal n (1000 ^ i) ++ " " ++ bitSymbols.getD i "bps" ∧
      1000 ^ i ≤ n ∧ (i < 5 → n < 1000 ^ (i + 1))) := by
  refine ⟨by decide, by decide, by decide, ?_, ?_⟩
  · intro n _ i hi
    refine ⟨?_, unitIdx_largest 1024 n i hi⟩
    unfold bytes2human
    rw [hi]
  · intro n hn
    obtain ⟨i, hi⟩ := unitIdx_isSome 1000 n hn
    refine ⟨i, hi, ?_, unitIdx_largest 1000 n i hi⟩
    unfold bits2human
    rw [hi]

/-! ## `RsyncTask.run` stdout handling

The spawned process is abstracted as the sequence of strings its
`stdout.readline()` returns (the empty string signalling end-of-stream)
plus its exit code.  The loop is

```
while True:
    line = p.stdout.readline()
    line_str = line.rstrip("\r\n")
    if not line:
        break
    m = prog_re.match(line_str)          # prog_re = ^\s*([\d,]+)
    if m:
        try:
            transferred = int(m.group(1).replace(",", ""))
            if progress_callback:
                progress_callback(transferred)
        except ValueError:
            pass
p.wait()
return p.returncode
```

`\s` and `\d` are modelled by their ASCII fragments (rsync emits ASCII);
since whitespace and `[\d,]` are disjoint classes, the greedy regex match
is drop-whitespace-prefix then take-digits-and-commas, requiring at least
one such character.  `int(tok.replace(",", ""))` succeeds exactly when a
digit remains after the commas are removed. -/

/-- ASCII fragment of Python's `\s`. -/
def isPySpace (c : Char) : Bool :=
  c = ' ' || c = '\t' || c = '\n' || c = '\r' || c = '\x0b' || c = '\x0c'

/-- Characters of the regex class `[\d,]` (ASCII fragment of `\d`). -/
def isDigitOrComma (c : Char) : Bool := c.isDigit || c = ','

/-- `int(...)` on a nonempty decimal digit string. -/
def digitsToNat (l : List Char) : Nat :=
  l.foldl (fun acc c => acc * 10 + (c.toNat - '0'.toNat)) 0

/-- `line.rstrip("\r\n")`. -/
def rstripCRLF (s : String) : String :=
  ⟨(s.data.reverse.dropWhile (fun c => c = '\r' || c = '\n')).reverse⟩

/-- Matching `^\s*([\d,]+)` against the line and feeding the group through
`int(group.replace(",", ""))`; `none` when the regex does not match or
when `int` raises `ValueError` (the group was all commas). -/
def parseProgressLine (line : String) : Option Nat :=
  let tok := (line.data.dropWhile isPySpace).takeWhile isDigitOrComma
  if tok.isEmpty then none
  else
    let digits := tok.filter (fun c => c != ',')
    if digits.isEmpty then none else some (digitsToNat digits)

/-- The read loop of `RsyncTask.run`: returns the successive values passed
to `progress_callback`.  An empty `readline()` result breaks the loop. -/
def runLoop : List String → List Nat
  | [] => []
  | line :: rest =>
    if line = "" then []
    else
      match parseProgressLine (rstripCRLF line) with
      | some v => v :: runLoop rest
      | none => runLoop rest

/-- `RsyncTask.run` with the process abstracted: the callback trace plus
the returned exit code (`p.wait(); return p.returncode`). -/
def runSim (stdoutLines : List String) (returncode : Int) : List Nat × Int :=
  (runLoop stdoutLines, returncode)

/-- C3: each line up to end-of-stream either yields one callback
invocation with the parsed leading numeric token (commas stripped) or is
silently skipped; the line `"  1,234,567   10%   1.23MB/s    0:00:12"`
invokes the callback with `1234567`, and a process exiting 1 makes `run`
return 1. -/
theorem claim_C3_run_line_handling :
    (∀ lines : List String, ∀ rc : Int,
      runSim lines rc =
        ((lines.takeWhile (fun l => l != "")).filterMap
          (fun l => parseProgressLine (rstripCRLF l)), rc)) ∧
    parseProgressLine "  1,234,567   10%   1.23MB/s    0:00:12" = some 1234567 ∧
    runSim ["  1,234,567   10%   1.23MB/s    0:00:12\n"] 1 = ([1234567], 1) := by
  refine ⟨?_, by decide, by decide⟩
  intro lines rc
  unfold runSim
  refine congrArg (·, rc) ?_
  induction lines with
  | nil => rfl
  | cons line rest ih =>
    by_cases hline : line = ""
    · subst hline; rfl
    · rw [runLoop, if_neg hline, List.takeWhile_cons,
        show (line != "") = true by simpa using hline, if_pos rfl, List.filterMap_cons]
      cases parseProgressLine (rstripCRLF line) with
      | none => simpa using ih
      | some v => simpa using ih

/-! ## `RsyncParallelExecutor.run_all`

```
def worker(task, idx):
    ret = task.run(...)
    self.results[idx] = ret
for idx, task in enumerate(self.tasks): ... t.start() ...
for t in threads: t.join()
return self.results
```

`self.results` starts as `[None] * len(tasks)`; each worker thread writes
its own slot exactly once.  The thread interleaving is abstracted as the
order in which the workers perform their `results[idx] = ret` store — any
permutation of the task indices.  The claim is that the outcome is
schedule-independent: slot `i` always exposes task `i`'s exit code. -/

/-- A task as the executor sees it: the abstracted external process of
`RsyncTask.run` (its stdout lines and exit code). -/
structure SimTask where
  stdoutLines : List String
  returncode : Int
deriving DecidableEq, Repr

/-- `ret = task.run(...)` — the exit code `run` returns for this task. -/
def taskExitCode (t : SimTask) : Int := (runSim t.stdoutLines t.returncode).2

/-- `run_all` under the store order `sched`: fold the workers'
`self.results[idx] = ret` writes over `[None] * len(tasks)`. -/
def run_all_sched (tasks : List SimTask) (sched : List Nat) : List (Option Int) :=
  sched.foldl
    (fun results idx => results.set idx (some (taskExitCode (tasks.getD idx ⟨[], 0⟩))))
    (List.replicate tasks.length none)

theorem foldl_set_length (f : Nat → Option Int) :
    ∀ (sched : List Nat) (init : List (Option Int)),
      (sched.foldl (fun r idx => r.set idx (f idx)) init).length = init.length := by
  intro sched
  induction sched with
  | nil => intro init; rfl
  | cons j rest ih =>
    intro init
    rw [List.foldl_cons, ih, List.length_set]

theorem foldl_set_get? (f : Nat → Option Int) :
    ∀ (sched : List Nat) (init : List (Option Int)),
      (∀ j ∈ sched, j < init.length) → ∀ i,
        (sched.foldl (fun r idx => r.set idx (f idx)) init).get? i =
          if i ∈ sched then some (f i) else init.get? i := by
  intro sched
  induction sched with
  | nil => intro init _ i; simp
  | cons j rest ih =>
    intro init hlt i
    rw [List.foldl_cons]
    have hrest : ∀ x ∈ rest, x < (init.set j (f j)).length := by
      intro x hx
      rw [List.length_set]
      exact hlt x (List.mem_cons_of_mem _ hx)
    rw [ih (init.set j (f j)) hrest i]
    by_cases hmem : i ∈ rest
    · rw [if_pos hmem, if_pos (List.mem_cons_of_mem _ hmem)]
    · rw [if_neg hmem]
      by_cases hij : i = j
      · subst hij
        rw [if_pos (List.mem_cons_self _ _),
          List.get?_set_eq_of_lt _ (hlt i (List.mem_cons_self _ _))]
      · rw [List.get?_set_ne _ _ (fun h => hij h.symm),
          if_neg (fun h => (List.mem_cons.1 h).elim hij hmem)]

/-- C4: for every task list and every order in which the worker threads
store their results (any permutation of the task indices), `run_all`
produces the results sequence whose entry `i` is the exit code of task
`i` — results are ordered identically to the input tasks, independent of
the interleaving. -/
theorem claim_C4_result_order (tasks : List SimTask) (sched : List Nat)
    (hperm : sched.Perm (List.range tasks.length)) :
    run_all_sched tasks sched = tasks.map (fun t => some (taskExitCode t)) := by
  have hmem : ∀ j, j ∈ sched ↔ j < tasks.length := by
    intro j
    rw [hperm.mem_iff, List.mem_range]
  apply List.ext_get?
  intro i
  unfold run_all_sched
  rw [foldl_set_get? _ sched _ (by
    intro j hj
    rw [List.length_replicate]
    exact (hmem j).1 hj) i]
  by_cases hi : i < tasks.length
  · rw [if_pos ((hmem i).2 hi), List.get?_map,
      List.get?_eq_get hi]
    have : tasks.getD i ⟨[], 0⟩ = tasks.get ⟨i, hi⟩ := by
      rw [List.getD_eq_getElem _ _ hi]
      rfl
    rw [this]
    rfl
  · rw [if_neg (fun h => hi ((hmem i).1 h)), List.get?_map]
    have h1 : (List.replicate tasks.length (none : Option Int)).get? i = none := by
      rw [List.get?_eq_none]
      rw [List.length_replicate]
      omega
    have h2 : tasks.get? i = none := by
      rw [List.get?_eq_none]
      omega
    rw [h1, h2]
    rfl

/-- Witness for C4: three tasks returning 0, 0 and 1, stored under the
out-of-order schedule `[2, 0, 1]`, give results `[0, 0, 1]` in task
order. -/
theorem claim_C4_result_order_witness :
    run_all_sched [⟨[], 0⟩, ⟨[], 0⟩, ⟨[], 1⟩] [2, 0, 1] =
      [some 0, some 0, some 1] := by
  have h := claim_C4_result_order [⟨[], 0⟩, ⟨[], 0⟩, ⟨[], 1⟩] [2, 0, 1] (by decide)
  rw [h]
  rfl

/-! ## The shared progress table and `update_progress`

```
def update_progress(task_index, bytes_value):
    with data_lock:
        progress_data[task_index] = max(
            progress_data.get(task_index, 0), bytes_value
        )
```

`progress_data` is a Python dict; it is modelled as an insertion-ordered
association list with unique keys (replace-in-place on existing keys,
append on new ones).  The lock makes each update atomic, so a history of
concurrent updates is a sequence of reports applied in some order. -/

/-- `progress_data.get(k, 0)`: the value at the first (unique) occurrence
of the key, defaulting to 0. -/
def dictGet : List (Nat × Nat) → Nat → Nat
  | [], _ => 0
  | p :: ps, k => if p.1 = k then p.2 else dictGet ps k

/-- `progress_data[k] = v`: replace the (unique) existing entry in place,
or append a new key at the end — Python dicts preserve insertion order. -/
def dictSet : List (Nat × Nat) → Nat → Nat → List (Nat × Nat)
  | [], k, v => [(k, v)]
  | p :: ps, k, v => if p.1 = k then (k, v) :: ps else p :: dictSet ps k v

/-- `update_progress` from `main`. -/
def update_progress (d : List (Nat × Nat)) (task_index bytes_value : Nat) :
    List (Nat × Nat) :=
  dictSet d task_index (max (dictGet d task_index) bytes_value)

/-- A history of progress reports `(task_index, bytes_value)` applied in
order. -/
def applyReports (d : List (Nat × Nat)) (reports : List (Nat × Nat)) :
    List (Nat × Nat) :=
  reports.foldl (fun acc r => update_progress acc r.1 r.2) d

theorem dictGet_dictSet_self : ∀ (d : List (Nat × Nat)) (k v : Nat),
    dictGet (dictSet d k v) k = v := by
  intro d k v
  induction d with
  | nil => simp [dictGet, dictSet]
  | cons p ps ih =>
    by_cases hp : p.1 = k
    · simp [dictGet, dictSet, hp]
    · simp [dictGet, dictSet, hp, ih]

theorem dictGet_dictSet_other : ∀ (d : List (Nat × Nat)) (k v j : Nat), k ≠ j →
    dictGet (dictSet d k v) j = dictGet d j := by
  intro d k v j hkj
  induction d with
  | nil => simp [dictGet, dictSet, hkj]
  | cons p ps ih =>
    by_cases hp : p.1 = k
    · have hpj : p.1 ≠ j := by rw [hp]; exact hkj
      simp [dictGet, dictSet, hp, hpj, hkj]
    · by_cases hpj : p.1 = j
      · simp [dictGet, dictSet, hp, hpj, Ne.symm hkj]
      · simp [dictGet, dictSet, hp, hpj, ih]

theorem dictGet_applyReports :
    ∀ (reports : List (Nat × Nat)) (d : List (Nat × Nat)) (i : Nat),
      dictGet (applyReports d reports) i =
        (reports.filterMap (fun r => if r.1 = i then some r.2 else none)).foldl
          max (dictGet d i) := by
  intro reports
  induction reports with
  | nil => intro d i; rfl
  | cons r rs ih =>
    intro d i
    show dictGet (applyReports (update_progress d r.1 r.2) rs) i = _
    rw [ih]
    by_cases hri : r.1 = i
    · subst hri
      rw [show update_progress d r.1 r.2 =
          dictSet d r.1 (max (dictGet d r.1) r.2) from rfl,
        dictGet_dictSet_self]
      simp [List.filterMap_cons]
    · rw [show update_progress d r.1 r.2 =
          dictSet d r.1 (max (dictGet d r.1) r.2) from rfl,
        dictGet_dictSet_other _ _ _ _ hri]
      simp [List.filterMap_cons, hri]

/-- C5: a single `update_progress` never decreases the stored value of any
task index, and after any history of reports the stored value for an index
is exactly the running maximum of the values reported for it (a late,
smaller report does not regress the stored value). -/
theorem claim_C5_progress_monotone :
    (∀ (d : List (Nat × Nat)) (i v j : Nat),
      dictGet d j ≤ dictGet (update_progress d i v) j) ∧
    (∀ (reports : List (Nat × Nat)) (i : Nat),
      dictGet (applyReports [] reports) i =
        (reports.filterMap (fun r => if r.1 = i then some r.2 else none)).foldl
          max 0) := by
  constructor
  · intro d i v j
    by_cases hij : i = j
    · subst hij
      rw [show update_progress d i v = dictSet d i (max (dictGet d i) v) from rfl,
        dictGet_dictSet_self]
      exact Nat.le_max_left _ _
    · rw [show update_progress d i v = dictSet d i (max (dictGet d i) v) from rfl,
        dictGet_dictSet_other _ _ _ _ hij]
  · intro reports i
    exact dictGet_applyReports reports [] i

/-! ## `progress_monitor`

One iteration of the reporting loop:

```
now = time.time()
dt = now - prev_time if now - prev_time > 0 else 1
with data_lock:
    transferred = sum(progress_data.values())
delta_bytes = transferred - prev_transferred
speed_bps = (delta_bytes / dt) * 8
pct = (transferred / total_bytes * 100) if total_bytes > 0 else 0
prev_time = now
prev_transferred = transferred
```

Timestamps and the derived float quantities are modelled over `ℚ`. -/

structure MonitorState where
  prevTime : ℚ
  prevTransferred : ℚ
deriving DecidableEq, Repr

structure MonitorOutput where
  dt : ℚ
  speedBps : ℚ
  pct : ℚ
deriving DecidableEq, Repr

/-- One cycle of `progress_monitor`: inputs are the wall-clock `now`, the
locked snapshot of `progress_data` and `total_bytes`; outputs are the
quantities rendered this cycle and the updated loop state. -/
def snapshotSum (progressData : List (Nat × Nat)) : Nat :=
  (progressData.map (fun p => p.2)).sum

def monitorCycle (st : MonitorState) (now : ℚ) (progressData : List (Nat × Nat))
    (totalBytes : Nat) : MonitorOutput × MonitorState :=
  let dt := if now - st.prevTime > 0 then now - st.prevTime else 1
  let transferred : ℚ := (snapshotSum progressData : ℚ)
  let deltaBytes := transferred - st.prevTransferred
  let speed := deltaBytes / dt * 8
  let pct := if (totalBytes : ℚ) > 0 then transferred / (totalBytes : ℚ) * 100 else 0
  (⟨dt, speed, pct⟩, ⟨now, transferred⟩)

/-- C9: every cycle, the elapsed-time divisor is positive (it is replaced
by 1 whenever `now - prev_time` is not positive), throughput is
`Δbytes / Δt × 8`, and the completion percentage is
`transferred / total × 100` with 0 when the total is 0 — neither division
divides by zero. -/
theorem claim_C9_monitor_arithmetic (st : MonitorState) (now : ℚ)
    (progressData : List (Nat × Nat)) (totalBytes : Nat) :
    0 < (monitorCycle st now progressData totalBytes).1.dt ∧
    (monitorCycle st now progressData totalBytes).1.speedBps =
      ((snapshotSum progressData : ℚ) - st.prevTransferred) /
        (monitorCycle st now progressData totalBytes).1.dt * 8 ∧
    (totalBytes = 0 → (monitorCycle st now progressData totalBytes).1.pct = 0) ∧
    (0 < totalBytes → (monitorCycle st now progressData totalBytes).1.pct =
      (snapshotSum progressData : ℚ) / (totalBytes : ℚ) * 100) := by
  refine ⟨?_, rfl, ?_, ?_⟩
  · show (0 : ℚ) < if now - st.prevTime > 0 then now - st.prevTime else 1
    split_ifs with h
    · exact h
    · exact one_pos
  · intro h
    show (if ((totalBytes : ℚ)) > 0 then _ else 0) = 0
    rw [if_neg]
    rw [h]
    simp
  · intro h
    show (if ((totalBytes : ℚ)) > 0 then _ else 0) = _
    rw [if_pos (by exact_mod_cast h)]

/-- Witness for C9 at a concrete input. -/
theorem claim_C9_monitor_arithmetic_witness :
    (monitorCycle ⟨0, 0⟩ 2 [(0, 500), (1, 500)] 0).1.pct = 0 ∧
    (monitorCycle ⟨0, 0⟩ 2 [(0, 500), (1, 500)] 1000).1.pct =
      (snapshotSum [(0, 500), (1, 500)] : ℚ) / ((1000 : Nat) : ℚ) * 100 :=
  ⟨(claim_C9_monitor_arithmetic ⟨0, 0⟩ 2 [(0, 500), (1, 500)] 0).2.2.1 rfl,
   (claim_C9_monitor_arithmetic ⟨0, 0⟩ 2 [(0, 500), (1, 500)] 1000).2.2.2 (by decide)⟩

/-! ## The driver: `main`

`main`'s effects are abstracted into an environment record: what the
filesystem checks observe, the walk result, the CLI arguments, and — per
task index — the exit code the external `rsync` comes back with.  The
trace records the process exit status and which milestones were reached:
whether any task was started, whether the aggregator stop event was set
(only meaningful when `--progress` started it), and whether the final
`[Summary]` line was printed. -/

structure Env where
  /-- `os.path.isdir(local_dir)` -/
  localDirIsDir : Bool
  /-- `args.remote_path` -/
  remotePath : String
  /-- the `(abs_path, size)` pairs collected by the `os.walk` loop -/
  files : List FileEntry
  /-- `args.max_procs` (modelled nonnegative, as the spec's CLI contract
  has it: a count of processes) -/
  maxProcsArg : Option Nat
  /-- `os.cpu_count()` -/
  cpuCount : Nat
  /-- `args.progress` -/
  progressFlag : Bool
  /-- exit code of the external `rsync` process of task `i` -/
  taskExit : Nat → Int

/-- `args.remote_path.startswith("rsync://")`, modelled on the character
sequence. -/
def startsWithRsync (s : String) : Bool :=
  "rsync://".data.isPrefixOf s.data

structure MainTrace where
  exitCode : Nat
  tasksStarted : Bool
  aggregatorStopped : Bool
  summaryPrinted : Bool
deriving DecidableEq, Repr

/-- `max_procs = args.max_procs if ... else os.cpu_count() - 1;`
`num_groups = min(len(file_info), max_procs)`. -/
def mainNumGroups (env : Env) : Nat :=
  min env.files.length
    (match env.maxProcsArg with
      | some m => m
      | none => env.cpuCount - 1)

/-- `results = executor.run_all()`: one exit code per constructed task. -/
def mainResults (env : Env) : List Int :=
  (List.range (split_files_by_capacity env.files (mainNumGroups env)).length).map
    env.taskExit

/-- `main` with its outward effects recorded.  The three configuration
checks exit 1 before any task is started.  When the computed group count
is 0 — `--max-procs 0`, or the default `os.cpu_count() - 1` on a
single-core host, with a nonempty file set — the first iteration of the
assignment loop in `split_files_by_capacity` evaluates `min([])` and the
uncaught `ValueError` kills the interpreter (exit status 1) before any
task or the aggregator exists.  Otherwise the tasks run, the aggregator
stop event is set (when `--progress` started it), and then either all
exit codes are zero — the summary is printed and the process ends with
status 0 — or `sys.exit(1)` fires on the spot. -/
def mainSim (env : Env) : MainTrace :=
  if !env.localDirIsDir then ⟨1, false, false, false⟩
  else if !(startsWithRsync env.remotePath) then ⟨1, false, false, false⟩
  else if env.files.isEmpty then ⟨1, false, false, false⟩
  else if mainNumGroups env = 0 then ⟨1, false, false, false⟩
  else if (mainResults env).all (fun r => r == 0) then
    ⟨0, true, env.progressFlag, true⟩
  else ⟨1, true, env.progressFlag, false⟩

/-- C6 counterexample: source directory present, destination well-formed,
nonempty file set, and no task ever reports a non-zero exit code — so the
claim ("exits 0 if every task's exit code was 0, exits 1 only for the
three configuration errors or a failing task") demands exit status 0 —
yet with `--max-procs 0` the program dies on the uncaught `ValueError`
from `min([])` (`split_files_by_capacity`, first loop iteration) and
exits with status 1, no task ever started. -/
theorem claim_C6_counterexample :
    startsWithRsync "rsync://h/p" = true ∧
    (mainSim ⟨true, "rsync://h/p", [⟨"/d/a", 5⟩], some 0, 4, false,
        fun _ => 0⟩).exitCode = 1 ∧
    (mainSim ⟨true, "rsync://h/p", [⟨"/d/a", 5⟩], some 0, 4, false,
        fun _ => 0⟩).tasksStarted = false := by
  refine ⟨by decide, by decide, by decide⟩

/-- C6 (amended): the three configuration errors (missing source
directory, destination without the `"rsync://"` prefix, empty file set)
exit 1 before any task is started.  Past those checks, a computed group
count of 0 (max_procs 0, or the default `cpu_count - 1` on a single-core
host, with a nonempty file set) also exits 1 before any task is started
(uncaught `ValueError` from `min([])`).  When the group count is at least
1 the tasks run, and the process exits 0 if every task's exit code was 0
and exits 1 if any task reported non-zero. -/
theorem claim_C6_exit_behavior (env : Env) :
    ((env.localDirIsDir = false ∨ startsWithRsync env.remotePath = false ∨
        env.files = []) →
      mainSim env = ⟨1, false, false, false⟩) ∧
    (env.localDirIsDir = true → startsWithRsync env.remotePath = true →
      env.files ≠ [] →
      (mainNumGroups env = 0 → mainSim env = ⟨1, false, false, false⟩) ∧
      (1 ≤ mainNumGroups env →
        ((∀ r ∈ mainResults env, r = 0) → (mainSim env).exitCode = 0) ∧
        ((∃ r ∈ mainResults env, r ≠ 0) → (mainSim env).exitCode = 1))) := by
  constructor
  · intro h
    unfold mainSim
    rcases h with h | h | h
    · rw [h]; rfl
    · rw [h]
      cases env.localDirIsDir <;> rfl
    · rw [h]
      cases env.localDirIsDir <;> cases startsWithRsync env.remotePath <;> rfl
  · intro hdir hrp hfiles
    have hne : env.files.isEmpty = false := by
      cases hf : env.files with
      | nil => exact absurd hf hfiles
      | cons a l => rfl
    constructor
    · intro h0
      unfold mainSim
      rw [hdir, hrp, hne, if_pos h0]
      rfl
    · intro hgroups
      have h0 : ¬mainNumGroups env = 0 := by omega
      constructor
      · intro hall
        have hb : (mainResults env).all (fun r => r == 0) = true := by
          rw [List.all_eq_true]
          intro r hr
          simpa using hall r hr
        unfold mainSim
        rw [hdir, hrp, hne, if_neg h0, hb]
        rfl
      · intro ⟨r, hr, hrne⟩
        have hb : (mainResults env).all (fun r => r == 0) = false := by
          rw [Bool.eq_false_iff]
          intro hall
          rw [List.all_eq_true] at hall
          exact hrne (by simpa using hall r hr)
        unfold mainSim
        rw [hdir, hrp, hne, if_neg h0, hb]
        rfl

/-- Witness for C6 (amended) at concrete inputs: a configuration error, a
zero-group crash run, and a successful run. -/
theorem claim_C6_exit_behavior_witness :
    mainSim ⟨false, "rsync://h/p", [⟨"/d/a", 5⟩], some 2, 4, false, fun _ => 0⟩ =
      ⟨1, false, false, false⟩ ∧
    mainSim ⟨true, "rsync://h/p", [⟨"/d/a", 5⟩], some 0, 4, false, fun _ => 0⟩ =
      ⟨1, false, false, false⟩ ∧
    (mainSim ⟨true, "rsync://h/p", [⟨"/d/a", 5⟩], some 2, 4, false, fun _ => 0⟩).exitCode
      = 0 := by
  refine ⟨?_, ?_, ?_⟩
  · exact (claim_C6_exit_behavior _).1 (Or.inl rfl)
  · exact ((claim_C6_exit_behavior _).2 rfl (by decide) (by decide)).1 (by decide)
  · refine ((((claim_C6_exit_behavior _).2 rfl (by decide) (by decide)).2 (by decide)).1) ?_
    intro r hr
    simp only [mainResults, List.mem_map] at hr
    obtain ⟨i, _, hi⟩ := hr
    exact hi.symm

/-- C7 counterexample: a run in which a task fails.  `sys.exit(1)` in the
`else` branch of the results check fires before the summary block is
reached, so the `[Summary]` line is NOT printed — refuting the claim that
the Summary is printed on completion regardless of task failure.  (The
aggregator stop event is still set before the check.) -/
theorem claim_C7_counterexample :
    (mainSim ⟨true, "rsync://h/p", [⟨"/d/a", 10⟩], some 1, 4, true,
        fun _ => 1⟩).summaryPrinted = false ∧
    (mainSim ⟨true, "rsync://h/p", [⟨"/d/a", 10⟩], some 1, 4, true,
        fun _ => 1⟩).exitCode = 1 ∧
    (mainSim ⟨true, "rsync://h/p", [⟨"/d/a", 10⟩], some 1, 4, true,
        fun _ => 1⟩).aggregatorStopped = true := by
  refine ⟨by decide, by decide, by decide⟩

/-- C7 (amended): in a run that reaches task execution (the computed
group count is at least 1), after all tasks complete the driver sets the
aggregator stop event (when `--progress` started the aggregator); if
every task exited 0 it prints the Summary and the process ends with
status 0, and if any task exited non-zero it exits with status 1 WITHOUT
printing the Summary. -/
theorem claim_C7_completion (env : Env)
    (hdir : env.localDirIsDir = true)
    (hrp : startsWithRsync env.remotePath = true)
    (hfiles : env.files ≠ [])
    (hgroups : 1 ≤ mainNumGroups env) :
    ((∀ r ∈ mainResults env, r = 0) →
      mainSim env = ⟨0, true, env.progressFlag, true⟩) ∧
    ((∃ r ∈ mainResults env, r ≠ 0) →
      mainSim env = ⟨1, true, env.progressFlag, false⟩) := by
  have hne : env.files.isEmpty = false := by
    cases hf : env.files with
    | nil => exact absurd hf hfiles
    | cons a l => rfl
  have h0 : ¬mainNumGroups env = 0 := by omega
  constructor
  · intro hall
    have hb : (mainResults env).all (fun r => r == 0) = true := by
      rw [List.all_eq_true]
      intro r hr
      simpa using hall r hr
    unfold mainSim
    rw [hdir, hrp, hne, if_neg h0, hb]
    rfl
  · intro ⟨r, hr, hrne⟩
    have hb : (mainResults env).all (fun r => r == 0) = false := by
      rw [Bool.eq_false_iff]
      intro hall
      rw [List.all_eq_true] at hall
      exact hrne (by simpa using hall r hr)
    unfold mainSim
    rw [hdir, hrp, hne, if_neg h0, hb]
    rfl

/-- Witness for C7 (amended) at a concrete input. -/
theorem claim_C7_completion_witness :
    mainSim ⟨true, "rsync://h/p", [⟨"/d/a", 5⟩], some 2, 4, true, fun _ => 0⟩ =
      ⟨0, true, true, true⟩ := by
  refine (claim_C7_completion _ rfl (by decide) (by decide) (by decide)).1 ?_
  intro r hr
  simp only [mainResults, List.mem_map] at hr
  obtain ⟨i, _, hi⟩ := hr
  exact hi.symm

/-- Witness for C8 at a concrete input. -/
theorem claim_C8_human_format_witness :
    (bytes2human 2048 = fmtOneDecimal 2048 (1024 ^ 1) ++ " " ++ byteSymbols.getD 1 "B" ∧
      1024 ^ 1 ≤ 2048 ∧ (1 < 5 → 2048 < 1024 ^ (1 + 1))) ∧
    (∃ i, unitIdx 1000 2048 = some i ∧
      bits2human 2048 = fmtOneDecimal 2048 (1000 ^ i) ++ " " ++ bitSymbols.getD i "bps" ∧
      1000 ^ i ≤ 2048 ∧ (i < 5 → 2048 < 1000 ^ (i + 1))) :=
  ⟨(claim_C8_human_format.2.2.2.1 2048 (by decide) 1 (by decide)),
   (claim_C8_human_format.2.2.2.2 2048 (by decide))⟩

end Parasync
